import Mathlib

/-!
Shallow embedding of the trade-ingestion core of `trading_gui.py`.

The program consumes messages from a RabbitMQ queue. The consumer
callback decodes each message body with `json.loads`; on success it
schedules `_process_trade` on the Tk main loop via `root.after`, on
failure it logs, and in either case it acknowledges the message.
`_process_trade` extracts the five trade fields with per-field defaults,
appends a row to the trades table, overwrites the last-price dictionary
entry for the symbol, and rebuilds the displayed last-price table.

JSON values are modelled by `JVal` (numbers as `Rat`, which is faithful
for the store/compare-only use the program makes of them). The decoded
object is an insertion-ordered association list, mirroring a Python
`dict`. Text-level JSON parsing is Python standard library code, not
repository code, so a message is modelled by its decode outcome: either
`Msg.malformed` (body not valid JSON) or `Msg.parsed v`.
-/

/-- A JSON value as produced by `json.loads`. -/
inductive JVal where
  | null : JVal
  | bool : Bool → JVal
  | num : Rat → JVal
  | str : String → JVal
  | arr : List JVal → JVal
  | obj : List (String × JVal) → JVal

mutual

/-- Boolean equality on JSON values. -/
def JVal.beq : JVal → JVal → Bool
  | .null, .null => true
  | .bool a, .bool b => a == b
  | .num a, .num b => a == b
  | .str a, .str b => a == b
  | .arr as, .arr bs => JVal.beqArr as bs
  | .obj fs, .obj gs => JVal.beqObj fs gs
  | _, _ => false
termination_by structural a => a

/-- Boolean equality on JSON arrays. -/
def JVal.beqArr : List JVal → List JVal → Bool
  | [], [] => true
  | a :: as, b :: bs => JVal.beq a b && JVal.beqArr as bs
  | _, _ => false

/-- Boolean equality on JSON objects. -/
def JVal.beqObj : List (String × JVal) → List (String × JVal) → Bool
  | [], [] => true
  | (k, v) :: fs, (l, w) :: gs => k == l && JVal.beq v w && JVal.beqObj fs gs
  | _, _ => false

end

mutual

theorem JVal.beq_refl : ∀ a : JVal, JVal.beq a a = true
  | .null => rfl
  | .bool a => by simp [JVal.beq]
  | .num a => by simp [JVal.beq]
  | .str a => by simp [JVal.beq]
  | .arr as => by simp [JVal.beq, JVal.beqArr_refl as]
  | .obj fs => by simp [JVal.beq, JVal.beqObj_refl fs]

theorem JVal.beqArr_refl : ∀ as : List JVal, JVal.beqArr as as = true
  | [] => rfl
  | a :: as => by simp [JVal.beqArr, JVal.beq_refl a, JVal.beqArr_refl as]

theorem JVal.beqObj_refl : ∀ fs : List (String × JVal), JVal.beqObj fs fs = true
  | [] => rfl
  | (k, v) :: fs => by simp [JVal.beqObj, JVal.beq_refl v, JVal.beqObj_refl fs]

end

mutual

theorem JVal.beq_sound : ∀ a b : JVal, JVal.beq a b = true → a = b
  | .null, .null, _ => rfl
  | .bool a, .bool b, h => by simp [JVal.beq] at h; rw [h]
  | .num a, .num b, h => by simp [JVal.beq] at h; rw [h]
  | .str a, .str b, h => by simp [JVal.beq] at h; rw [h]
  | .arr as, .arr bs, h => by
      rw [JVal.beqArr_sound as bs (by simpa [JVal.beq] using h)]
  | .obj fs, .obj gs, h => by
      rw [JVal.beqObj_sound fs gs (by simpa [JVal.beq] using h)]
  | .null, .bool _, h | .null, .num _, h | .null, .str _, h
  | .null, .arr _, h | .null, .obj _, h
  | .bool _, .null, h | .bool _, .num _, h | .bool _, .str _, h
  | .bool _, .arr _, h | .bool _, .obj _, h
  | .num _, .null, h | .num _, .bool _, h | .num _, .str _, h
  | .num _, .arr _, h | .num _, .obj _, h
  | .str _, .null, h | .str _, .bool _, h | .str _, .num _, h
  | .str _, .arr _, h | .str _, .obj _, h
  | .arr _, .null, h | .arr _, .bool _, h | .arr _, .num _, h
  | .arr _, .str _, h | .arr _, .obj _, h
  | .obj _, .null, h | .obj _, .bool _, h | .obj _, .num _, h
  | .obj _, .str _, h | .obj _, .arr _, h => by simp [JVal.beq] at h

theorem JVal.beqArr_sound : ∀ as bs : List JVal, JVal.beqArr as bs = true → as = bs
  | [], [], _ => rfl
  | a :: as, b :: bs, h => by
      simp only [JVal.beqArr, Bool.and_eq_true] at h
      rw [JVal.beq_sound a b h.1, JVal.beqArr_sound as bs h.2]
  | [], _ :: _, h | _ :: _, [], h => by simp [JVal.beqArr] at h

theorem JVal.beqObj_sound :
    ∀ fs gs : List (String × JVal), JVal.beqObj fs gs = true → fs = gs
  | [], [], _ => rfl
  | (k, v) :: fs, (l, w) :: gs, h => by
      simp only [JVal.beqObj, Bool.and_eq_true] at h
      obtain ⟨⟨hk, hv⟩, hrest⟩ := h
      rw [eq_of_beq hk, JVal.beq_sound v w hv, JVal.beqObj_sound fs gs hrest]
  | [], _ :: _, h | _ :: _, [], h => by simp [JVal.beqObj] at h

end

instance : BEq JVal := ⟨JVal.beq⟩

instance : LawfulBEq JVal where
  eq_of_beq h := JVal.beq_sound _ _ h
  rfl := JVal.beq_refl _

instance : DecidableEq JVal := fun a b =>
  decidable_of_iff ((a == b) = true) beq_iff_eq

/-- A decoded trade message body: a Python dict, insertion ordered with
unique keys (as `json.loads` produces). -/
abbrev TradeDict := List (String × JVal)

/-- `trade.get(k, dflt)` on a decoded object. -/
def dictGet (d : TradeDict) (k : String) (dflt : JVal) : JVal :=
  match d.find? (fun p => p.1 == k) with
  | some p => p.2
  | none => dflt

/-- `self.last_prices[k] = v` on a Python dict keyed by arbitrary JSON
values: overwrite in place if the key is present, else append. -/
def dictSet (d : List (JVal × JVal)) (k v : JVal) : List (JVal × JVal) :=
  if d.any (fun p => p.1 == k) then
    d.map (fun p => if p.1 == k then (p.1, v) else p)
  else d ++ [(k, v)]

/-- Lookup in the last-price dictionary. -/
def dictFind (d : List (JVal × JVal)) (k : JVal) : Option JVal :=
  match d.find? (fun p => p.1 == k) with
  | some p => some p.2
  | none => none

/-- The five fields `_process_trade` extracts from a decoded trade
(lines 186-190 of `trading_gui.py`), kept as the row inserted into the
trades table. -/
structure TradeRecord where
  symbol : JVal
  price : JVal
  quantity : JVal
  buyer : JVal
  seller : JVal
deriving DecidableEq

/-- Field extraction with the per-field defaults of the source:
`trade.get("symbol", "???")`, `trade.get("price", 0.0)`, etc. -/
def extractRecord (trade : TradeDict) : TradeRecord :=
  { symbol := dictGet trade "symbol" (.str "???")
  , price := dictGet trade "price" (.num 0)
  , quantity := dictGet trade "quantity" (.num 0)
  , buyer := dictGet trade "buyer" (.str "???")
  , seller := dictGet trade "seller" (.str "???") }

/-- The mutable state of `TradingGUI` relevant to ingestion:
the trades table rows, the `last_prices` dict, and the rows of the
displayed last-price table. -/
structure GuiState where
  trades_tree : List TradeRecord
  last_prices : List (JVal × JVal)
  prices_tree : List (JVal × JVal)
deriving DecidableEq

/-- State after `__init__`: `self.last_prices = {}`, both Treeviews
empty. -/
def initState : GuiState :=
  { trades_tree := [], last_prices := [], prices_tree := [] }

/-- `_refresh_prices_tree`: delete every row of the prices Treeview,
then insert one row per `last_prices` item in iteration order. -/
def refreshPricesTree (s : GuiState) : GuiState :=
  let cleared : GuiState := { s with prices_tree := [] }
  { cleared with prices_tree :=
      s.last_prices.foldl (fun rows p => rows ++ [(p.1, p.2)]) cleared.prices_tree }

/-- `_process_trade`: extract the fields, append a row to the trades
table, overwrite `last_prices[symbol]`, refresh the displayed prices. -/
def processTrade (s : GuiState) (trade : TradeDict) : GuiState :=
  let r := extractRecord trade
  let s1 : GuiState := { s with trades_tree := s.trades_tree ++ [r] }
  let s2 : GuiState := { s1 with last_prices := dictSet s1.last_prices r.symbol r.price }
  refreshPricesTree s2

/-- Apply a sequence of decoded trades in order. -/
def applyTrades (s : GuiState) (ts : List TradeDict) : GuiState :=
  ts.foldl processTrade s

/-- The decode outcome of one inbound message body:
`json.loads(body.decode("utf-8"))` either raises (`malformed`) or
returns a JSON value. -/
inductive Msg where
  | malformed : Msg
  | parsed : JVal → Msg

/-- The whole-system state seen by the consumer callback: the GUI
state owned by the Tk main loop, the queue of `root.after`-scheduled
`_process_trade` calls not yet executed, the count of broker
acknowledgements issued, and the count of decode errors printed. -/
structure SysState where
  store : GuiState
  pending : List JVal
  acked : Nat
  errors : Nat

/-- System state at startup. -/
def initSys : SysState :=
  { store := initState, pending := [], acked := 0, errors := 0 }

/-- The consumer `callback` (lines 168-174): on a decodable body,
schedule `_process_trade` on the main loop; on decode failure, print
the error; in both cases acknowledge the message. -/
def callback (s : SysState) (m : Msg) : SysState :=
  match m with
  | .parsed v => { s with pending := s.pending ++ [v], acked := s.acked + 1 }
  | .malformed => { s with errors := s.errors + 1, acked := s.acked + 1 }

/-- One step of the Tk main loop: execute the oldest scheduled
`_process_trade` call. A non-dict payload raises `AttributeError`
inside the scheduled callback and changes no state. -/
def runPending (s : SysState) : SysState :=
  match s.pending with
  | [] => s
  | v :: rest =>
    match v with
    | .obj fields => { s with store := processTrade s.store fields, pending := rest }
    | _ => { s with pending := rest }

/-- Concrete scenario trade `(AAPL,100,10,B1,S1)`. -/
def tradeA1 : TradeDict :=
  [("symbol", .str "AAPL"), ("price", .num 100), ("quantity", .num 10),
   ("buyer", .str "B1"), ("seller", .str "S1")]

/-- Concrete scenario trade `(MSFT,50,5,B2,S2)`. -/
def tradeM2 : TradeDict :=
  [("symbol", .str "MSFT"), ("price", .num 50), ("quantity", .num 5),
   ("buyer", .str "B2"), ("seller", .str "S2")]

/-- Concrete scenario trade `(AAPL,101,3,B3,S3)`. -/
def tradeA3 : TradeDict :=
  [("symbol", .str "AAPL"), ("price", .num 101), ("quantity", .num 3),
   ("buyer", .str "B3"), ("seller", .str "S3")]

/-! Lemmas about the dictionary operations. -/

theorem dictFind_eq_map_find (d : List (JVal × JVal)) (k : JVal) :
    dictFind d k = (d.find? (fun p => p.1 == k)).map Prod.snd := by
  unfold dictFind
  cases d.find? (fun p => p.1 == k) <;> rfl

theorem find_overwrite (k v : JVal) :
    ∀ d : List (JVal × JVal), d.any (fun p => p.1 == k) = true →
      (d.map (fun p => if p.1 == k then (p.1, v) else p)).find? (fun p => p.1 == k) =
        some (k, v)
  | [], h => by simp at h
  | p :: rest, h => by
    by_cases hp : (p.1 == k) = true
    · simp [List.find?, hp, eq_of_beq hp]
    · have hrest : rest.any (fun q => q.1 == k) = true := by
        simpa [List.any_cons, hp] using h
      simpa [List.find?, hp] using find_overwrite k v rest hrest

theorem find_append_new (k v : JVal) :
    ∀ d : List (JVal × JVal), d.any (fun p => p.1 == k) = false →
      (d ++ [(k, v)]).find? (fun p => p.1 == k) = some (k, v)
  | [], _ => by simp [List.find?]
  | p :: rest, h => by
    simp only [List.any_cons, Bool.or_eq_false_iff] at h
    simpa [List.find?, h.1] using find_append_new k v rest h.2

theorem dictFind_dictSet_self (d : List (JVal × JVal)) (k v : JVal) :
    dictFind (dictSet d k v) k = some v := by
  rw [dictFind_eq_map_find]
  unfold dictSet
  by_cases h : d.any (fun p => p.1 == k) = true
  · rw [if_pos h, find_overwrite k v d h]; rfl
  · rw [if_neg h, find_append_new k v d (Bool.eq_false_iff.mpr h)]; rfl

theorem find_overwrite_ne (k v q : JVal) (hne : q ≠ k) :
    ∀ d : List (JVal × JVal),
      (d.map (fun p => if p.1 == k then (p.1, v) else p)).find? (fun p => p.1 == q) =
        d.find? (fun p => p.1 == q)
  | [] => rfl
  | p :: rest => by
    by_cases hp : (p.1 == q) = true
    · have hk : (p.1 == k) = false := by
        rw [eq_of_beq hp]
        exact beq_eq_false_iff_ne.mpr hne
      simp [List.find?, hp, hk]
    · by_cases hk : (p.1 == k) = true
      · simpa [List.find?, hp, hk] using find_overwrite_ne k v q hne rest
      · simpa [List.find?, hp, hk] using find_overwrite_ne k v q hne rest

theorem dictFind_dictSet_ne (d : List (JVal × JVal)) (k v q : JVal) (hne : q ≠ k) :
    dictFind (dictSet d k v) q = dictFind d q := by
  rw [dictFind_eq_map_find, dictFind_eq_map_find]
  unfold dictSet
  by_cases h : d.any (fun p => p.1 == k) = true
  · rw [if_pos h, find_overwrite_ne k v q hne d]
  · rw [if_neg h, List.find?_append]
    have : ([(k, v)] : List (JVal × JVal)).find? (fun p => p.1 == q) = none := by
      simp [List.find?, beq_eq_false_iff_ne.mpr (fun he => hne he.symm)]
    rw [this]
    cases d.find? (fun p => p.1 == q) <;> rfl

theorem dictSet_length (d : List (JVal × JVal)) (k v : JVal) :
    (dictSet d k v).length ≤ d.length + 1 := by
  unfold dictSet
  by_cases h : d.any (fun p => p.1 == k) = true
  · rw [if_pos h, List.length_map]; omega
  · rw [if_neg h, List.length_append]; simp

theorem dictSet_keys (d : List (JVal × JVal)) (k v : JVal) :
    (dictSet d k v).map Prod.fst =
      if d.any (fun p => p.1 == k) = true then d.map Prod.fst
      else d.map Prod.fst ++ [k] := by
  unfold dictSet
  by_cases h : d.any (fun p => p.1 == k) = true
  · rw [if_pos h, if_pos h, List.map_map]
    refine List.map_congr_left (fun p _ => ?_)
    by_cases hp : (p.1 == k) = true <;> simp [Function.comp, hp]
  · rw [if_neg h, if_neg h]
    simp

theorem dictSet_keys_nodup (d : List (JVal × JVal)) (k v : JVal)
    (h : (d.map Prod.fst).Nodup) : ((dictSet d k v).map Prod.fst).Nodup := by
  rw [dictSet_keys]
  by_cases hc : d.any (fun p => p.1 == k) = true
  · rwa [if_pos hc]
  · rw [if_neg hc]
    have hk : k ∉ d.map Prod.fst := by
      intro hmem
      rcases List.mem_map.mp hmem with ⟨p, hp, hpk⟩
      have : (p.1 == k) = true := by rw [hpk]; exact beq_self_eq_true k
      exact hc (List.any_eq_true.mpr ⟨p, hp, this⟩)
    exact List.Nodup.append h (List.nodup_singleton k)
      (List.disjoint_singleton.mpr hk)

/-! Lemmas about `processTrade`, `refreshPricesTree` and `applyTrades`. -/

theorem rows_foldl (l : List (JVal × JVal)) (acc : List (JVal × JVal)) :
    l.foldl (fun rows p => rows ++ [(p.1, p.2)]) acc = acc ++ l := by
  induction l generalizing acc with
  | nil => simp
  | cons p rest ih => simp [List.foldl_cons, ih]

theorem refreshPricesTree_prices (s : GuiState) :
    (refreshPricesTree s).prices_tree = s.last_prices := by
  simp [refreshPricesTree, rows_foldl]

theorem refreshPricesTree_trades (s : GuiState) :
    (refreshPricesTree s).trades_tree = s.trades_tree := rfl

theorem refreshPricesTree_last_prices (s : GuiState) :
    (refreshPricesTree s).last_prices = s.last_prices := rfl

theorem processTrade_trades (s : GuiState) (t : TradeDict) :
    (processTrade s t).trades_tree = s.trades_tree ++ [extractRecord t] := rfl

theorem processTrade_last_prices (s : GuiState) (t : TradeDict) :
    (processTrade s t).last_prices =
      dictSet s.last_prices (extractRecord t).symbol (extractRecord t).price := rfl

theorem processTrade_prices_tree (s : GuiState) (t : TradeDict) :
    (processTrade s t).prices_tree = (processTrade s t).last_prices := by
  unfold processTrade
  rw [refreshPricesTree_prices, refreshPricesTree_last_prices]

theorem applyTrades_nil (s : GuiState) : applyTrades s [] = s := rfl

theorem applyTrades_cons (s : GuiState) (t : TradeDict) (ts : List TradeDict) :
    applyTrades s (t :: ts) = applyTrades (processTrade s t) ts := rfl

theorem applyTrades_append_one (s : GuiState) (ts : List TradeDict) (t : TradeDict) :
    applyTrades s (ts ++ [t]) = processTrade (applyTrades s ts) t := by
  simp [applyTrades, List.foldl_append]

theorem applyTrades_trades (s : GuiState) (ts : List TradeDict) :
    (applyTrades s ts).trades_tree = s.trades_tree ++ ts.map extractRecord := by
  induction ts generalizing s with
  | nil => simp [applyTrades_nil]
  | cons t rest ih =>
    rw [applyTrades_cons, ih, processTrade_trades]
    simp

theorem applyTrades_last_prices_length (s : GuiState) (ts : List TradeDict) :
    (applyTrades s ts).last_prices.length ≤ s.last_prices.length + ts.length := by
  induction ts generalizing s with
  | nil => simp [applyTrades_nil]
  | cons t rest ih =>
    rw [applyTrades_cons]
    calc (applyTrades (processTrade s t) rest).last_prices.length
        ≤ (processTrade s t).last_prices.length + rest.length := ih _
      _ ≤ s.last_prices.length + 1 + rest.length := by
          rw [processTrade_last_prices]
          exact Nat.add_le_add_right (dictSet_length _ _ _) _
      _ = s.last_prices.length + (t :: rest).length := by
          simp [List.length_cons]; omega

theorem applyTrades_keys_nodup (s : GuiState) (ts : List TradeDict)
    (h : (s.last_prices.map Prod.fst).Nodup) :
    ((applyTrades s ts).last_prices.map Prod.fst).Nodup := by
  induction ts generalizing s with
  | nil => exact h
  | cons t rest ih =>
    rw [applyTrades_cons]
    exact ih _ (by rw [processTrade_last_prices]; exact dictSet_keys_nodup _ _ _ h)

theorem dictFind_applyTrades (s : GuiState) (ts : List TradeDict) (sym : JVal) :
    dictFind (applyTrades s ts).last_prices sym =
      match (ts.filter (fun t => (extractRecord t).symbol == sym)).getLast? with
      | some t => some (extractRecord t).price
      | none => dictFind s.last_prices sym := by
  induction ts using List.reverseRecOn with
  | nil => simp [applyTrades_nil]
  | append_singleton ts t ih =>
    rw [applyTrades_append_one, List.filter_append]
    by_cases hp : ((extractRecord t).symbol == sym) = true
    · have hsym : (extractRecord t).symbol = sym := eq_of_beq hp
      rw [processTrade_last_prices, hsym, dictFind_dictSet_self]
      simp [List.filter, hp, List.getLast?_concat]
    · have hsym : sym ≠ (extractRecord t).symbol := fun he => by
        rw [he] at hp
        exact hp (beq_self_eq_true _)
      rw [processTrade_last_prices, dictFind_dictSet_ne _ _ _ _ hsym, ih]
      simp [List.filter, hp]

/-! Claim theorems. -/

/-- Claim C1: for every sequence of decoded trades applied in order via
`_process_trade`, the last-price map entry for each symbol equals the
price field of the most recent trade in the sequence whose symbol field
is that symbol. -/
theorem lastPrice_eq_most_recent (ts : List TradeDict) (sym : JVal)
    (h : ts.filter (fun t => (extractRecord t).symbol == sym) ≠ []) :
    dictFind (applyTrades initState ts).last_prices sym =
      some (extractRecord
        ((ts.filter (fun t => (extractRecord t).symbol == sym)).getLast h)).price := by
  rw [dictFind_applyTrades, List.getLast?_eq_getLast _ h]

/-- Witness for C1: the three-trade scenario, queried at symbol AAPL,
whose most recent AAPL trade has price 101. -/
theorem lastPrice_eq_most_recent_witness :
    ([tradeA1, tradeM2, tradeA3].filter
        (fun t => (extractRecord t).symbol == JVal.str "AAPL") ≠ []) ∧
    dictFind (applyTrades initState [tradeA1, tradeM2, tradeA3]).last_prices
      (JVal.str "AAPL") = some (JVal.num 101) := by
  refine ⟨by decide, ?_⟩
  rw [lastPrice_eq_most_recent [tradeA1, tradeM2, tradeA3] (JVal.str "AAPL")
    (by decide)]
  decide

/-- Claim C2: applying N decoded trades to the empty state yields a
ledger with exactly N rows, one per trade, in application order; the
row at position i (0-based) is the record of the i-th trade. -/
theorem ledger_rows_in_order (ts : List TradeDict) :
    (applyTrades initState ts).trades_tree.length = ts.length ∧
    (applyTrades initState ts).trades_tree = ts.map extractRecord ∧
    ∀ i : Fin ts.length,
      (applyTrades initState ts).trades_tree[i.val]? = some (extractRecord (ts.get i)) := by
  have hmap : (applyTrades initState ts).trades_tree = ts.map extractRecord := by
    rw [applyTrades_trades]; rfl
  refine ⟨by rw [hmap]; simp, hmap, fun i => ?_⟩
  rw [hmap, List.getElem?_map]
  simp [List.getElem?_eq_getElem i.isLt]

/-- Claim C3: a malformed (non-decodable) message leaves the GUI state
and the queue of scheduled applications unchanged, and the loop goes
on: a following message yields exactly the store and schedule it would
have yielded had the malformed one never arrived. -/
theorem malformed_message_dropped (s : SysState) :
    (callback s Msg.malformed).store = s.store ∧
    (callback s Msg.malformed).pending = s.pending ∧
    ∀ m : Msg,
      (callback (callback s Msg.malformed) m).store = (callback s m).store ∧
      (callback (callback s Msg.malformed) m).pending = (callback s m).pending := by
  refine ⟨rfl, rfl, fun m => ?_⟩
  cases m <;> exact ⟨rfl, rfl⟩

/-- Claim C4 as stated is false on the code: a present but wrong-typed
field is passed through verbatim, not replaced by its default. The
decoded form of `{"symbol": "X", "price": "oops"}` carries price
`"oops"`, not `0.0`, and that string is what lands in the price map. -/
theorem wrongTyped_field_not_defaulted :
    (extractRecord [("symbol", JVal.str "X"), ("price", JVal.str "oops")]).price
        = JVal.str "oops" ∧
    (extractRecord [("symbol", JVal.str "X"), ("price", JVal.str "oops")]).price
        ≠ JVal.num 0 ∧
    dictFind (processTrade initState
        [("symbol", JVal.str "X"), ("price", JVal.str "oops")]).last_prices
        (JVal.str "X") = some (JVal.str "oops") := by
  exact ⟨by decide, by decide, by decide⟩

/-- Claim C4 (amended): decoding fails exactly on bodies that are not
parseable as JSON; an absent field falls back to its per-field default
while a present field of any type is taken verbatim, never causing a
failure; and the decoded record is always applied (a ledger row is
appended, no error is counted). -/
theorem decode_leniency (t : TradeDict) (s : GuiState) (sys : SysState) (v : JVal) :
    (t.find? (fun p => p.1 == "symbol") = none →
      (extractRecord t).symbol = JVal.str "???") ∧
    (t.find? (fun p => p.1 == "price") = none →
      (extractRecord t).price = JVal.num 0) ∧
    (t.find? (fun p => p.1 == "quantity") = none →
      (extractRecord t).quantity = JVal.num 0) ∧
    (t.find? (fun p => p.1 == "buyer") = none →
      (extractRecord t).buyer = JVal.str "???") ∧
    (t.find? (fun p => p.1 == "seller") = none →
      (extractRecord t).seller = JVal.str "???") ∧
    (∀ pv, t.find? (fun p => p.1 == "symbol") = some pv →
      (extractRecord t).symbol = pv.2) ∧
    (∀ pv, t.find? (fun p => p.1 == "price") = some pv →
      (extractRecord t).price = pv.2) ∧
    (∀ pv, t.find? (fun p => p.1 == "quantity") = some pv →
      (extractRecord t).quantity = pv.2) ∧
    (∀ pv, t.find? (fun p => p.1 == "buyer") = some pv →
      (extractRecord t).buyer = pv.2) ∧
    (∀ pv, t.find? (fun p => p.1 == "seller") = some pv →
      (extractRecord t).seller = pv.2) ∧
    (processTrade s t).trades_tree = s.trades_tree ++ [extractRecord t] ∧
    (callback sys (Msg.parsed v)).errors = sys.errors ∧
    (callback sys Msg.malformed).errors = sys.errors + 1 := by
  refine ⟨?_, ?_, ?_, ?_, ?_, ?_, ?_, ?_, ?_, ?_, rfl, rfl, rfl⟩
  · intro h; simp [extractRecord, dictGet, h]
  · intro h; simp [extractRecord, dictGet, h]
  · intro h; simp [extractRecord, dictGet, h]
  · intro h; simp [extractRecord, dictGet, h]
  · intro h; simp [extractRecord, dictGet, h]
  · intro pv h; simp [extractRecord, dictGet, h]
  · intro pv h; simp [extractRecord, dictGet, h]
  · intro pv h; simp [extractRecord, dictGet, h]
  · intro pv h; simp [extractRecord, dictGet, h]
  · intro pv h; simp [extractRecord, dictGet, h]

/-- Witness for the amended C4: an absent price defaults to 0, while a
wrong-typed present price and a wrong-typed present quantity are
carried verbatim. -/
theorem decode_leniency_witness :
    (extractRecord [("symbol", JVal.str "TSLA")]).price = JVal.num 0 ∧
    (extractRecord [("price", JVal.str "weird")]).price = JVal.str "weird" ∧
    (extractRecord [("quantity", JVal.bool true)]).quantity = JVal.bool true := by
  refine ⟨?_, ?_, ?_⟩
  · exact (decode_leniency [("symbol", JVal.str "TSLA")] initState initSys
      JVal.null).2.1 (by decide)
  · exact (decode_leniency [("price", JVal.str "weird")] initState initSys
      JVal.null).2.2.2.2.2.2.1 ("price", JVal.str "weird") (by decide)
  · exact (decode_leniency [("quantity", JVal.bool true)] initState initSys
      JVal.null).2.2.2.2.2.2.2.1 ("quantity", JVal.bool true) (by decide)

/-- Claim C5 as stated is false on the code: the consumer callback
acknowledges right after scheduling `_process_trade` on the Tk main
loop, so a message is acknowledged while the store is still untouched.
On the fresh system, after the callback for a well-formed trade the
message is acknowledged yet neither ledger nor price map has been
updated: the application is still pending. -/
theorem ack_precedes_application :
    (callback initSys (Msg.parsed (JVal.obj tradeA1))).acked = 1 ∧
    (callback initSys (Msg.parsed (JVal.obj tradeA1))).store = initState ∧
    (callback initSys (Msg.parsed (JVal.obj tradeA1))).pending = [JVal.obj tradeA1] :=
  ⟨rfl, rfl, rfl⟩

/-- Claim C5 (amended): each message is acknowledged exactly once, after
its decode attempt and after its application has been scheduled onto
the main loop (for decodable bodies) — but possibly before the
scheduled application runs, so the store can still be unchanged at
acknowledgement time. -/
theorem ack_after_scheduling (s : SysState) (v : JVal) :
    (callback s (Msg.parsed v)).acked = s.acked + 1 ∧
    (callback s (Msg.parsed v)).pending = s.pending ++ [v] ∧
    (callback s (Msg.parsed v)).store = s.store ∧
    (callback s Msg.malformed).acked = s.acked + 1 :=
  ⟨rfl, rfl, rfl, rfl⟩

/-- Claim C6: a message with every field absent decodes to the
all-defaults record (price `0.0` is `(0 : Rat)` in the model) and is
still applied; applying the decoded trade of `{"symbol": "TSLA"}` puts
the entry `TSLA ↦ 0` into the price map, whatever the prior state. -/
theorem empty_trade_defaults_applied (s : GuiState) :
    extractRecord [] =
      ⟨JVal.str "???", JVal.num 0, JVal.num 0, JVal.str "???", JVal.str "???"⟩ ∧
    (processTrade s []).trades_tree = s.trades_tree ++ [extractRecord []] ∧
    dictFind (processTrade s [("symbol", JVal.str "TSLA")]).last_prices
      (JVal.str "TSLA") = some (JVal.num 0) := by
  refine ⟨rfl, rfl, ?_⟩
  exact dictFind_dictSet_self s.last_prices (JVal.str "TSLA") (JVal.num 0)

/-- Claim C7: in every state reachable from the empty state, the number
of ledger rows is at least the number of price-map entries whose price
differs from the default `0.0`. -/
theorem ledger_dominates_nondefault_prices (ts : List TradeDict) :
    ((applyTrades initState ts).last_prices.filter
        (fun p => p.2 != JVal.num 0)).length ≤
      (applyTrades initState ts).trades_tree.length := by
  have h2 : (applyTrades initState ts).trades_tree.length = ts.length := by
    rw [applyTrades_trades]; simp [initState]
  calc ((applyTrades initState ts).last_prices.filter
          (fun p => p.2 != JVal.num 0)).length
      ≤ (applyTrades initState ts).last_prices.length :=
        List.length_filter_le _ _
    _ ≤ ts.length := by
        simpa [initState] using applyTrades_last_prices_length initState ts
    _ = (applyTrades initState ts).trades_tree.length := h2.symm

/-- Claim C8: applying a trade only appends one row at the end of the
ledger — every prior row is still present, unchanged, at its old
position — and refreshing the price view never touches the ledger. -/
theorem ledger_append_only (s : GuiState) (t : TradeDict) :
    (processTrade s t).trades_tree = s.trades_tree ++ [extractRecord t] ∧
    (∀ i : Fin s.trades_tree.length,
      (processTrade s t).trades_tree[i.val]? = some (s.trades_tree.get i)) ∧
    (refreshPricesTree s).trades_tree = s.trades_tree := by
  refine ⟨rfl, fun i => ?_, rfl⟩
  rw [processTrade_trades, List.getElem?_append, if_pos i.isLt]
  simp [List.getElem?_eq_getElem i.isLt]

/-- Claim C9: every message the consumer callback receives is
acknowledged exactly once, whether or not its body decodes. -/
theorem every_message_acked_once (s : SysState) (m : Msg) :
    (callback s m).acked = s.acked + 1 := by
  cases m <;> rfl

/-- Claim C10: after each applied trade in any reachable state, the
displayed price view is rebuilt from the price map and equals it row
for row — one row per symbol with its current price, no duplicate
symbol rows. -/
theorem prices_view_matches_map (ts : List TradeDict) (t : TradeDict) :
    (processTrade (applyTrades initState ts) t).prices_tree =
      (processTrade (applyTrades initState ts) t).last_prices ∧
    ((processTrade (applyTrades initState ts) t).last_prices.map Prod.fst).Nodup := by
  constructor
  · exact processTrade_prices_tree _ _
  · have h := applyTrades_keys_nodup initState (ts ++ [t]) (by simp [initState])
    rwa [applyTrades_append_one] at h
